import Mathlib

/-!
Verification of the Markdown-to-structured-document compiler of
`markdown_to_pdf/server.py`: the line-oriented block scanner
`markdown_to_reportlab`, the lookahead classifier `is_special_line`, the
table builder `parse_markdown_table` and the inline rewriting pipeline
`process_inline_formatting`.

The embedding works on `List Char` ("lines" after splitting the input on
newline characters, exactly as `markdown_text.split('\n')` does) and mirrors
the Python functions one by one.  The regular expressions of the source are
compiled by hand into character-list scanners; each scanner's doc comment
names the pattern it implements, including the greedy/lazy and backtracking
behaviour of the Python `re` engine on that pattern.  Python whitespace and
alphanumeric tests are modelled on the ASCII range.
-/

/-- A line (or any piece of text) is a list of characters. -/
abbrev Line := List Char

/-- Shorthand turning a string literal into a character list. -/
def toL (s : String) : Line := s.toList

/-- ASCII model of Python `str.strip()` whitespace and of `\s` in `re`
patterns: space, tab, newline, vertical tab, form feed, carriage return. -/
def isPySpace (c : Char) : Bool :=
  c = ' ' || c = '\t' || c = '\n' || c = '\x0b' || c = '\x0c' || c = '\r'

/-- Removes trailing `isPySpace` characters (the right half of `strip()`). -/
def dropTrailWS (l : Line) : Line :=
  (l.reverse.dropWhile isPySpace).reverse

/-- Python `line.strip()`: removes leading and trailing whitespace. -/
def pyStrip (l : Line) : Line :=
  dropTrailWS (l.dropWhile isPySpace)

/-- ASCII model of Python `str.isalnum()` on the optional neighbouring
character used by the underscore-italic guard; an absent character (match at
the very start or end of the string) counts as non-alphanumeric, matching
`prev_char and prev_char.isalnum()` where `prev_char` is then `''`. -/
def alnumO : Option Char → Bool
  | some c => c.isAlphanum
  | none => false

/-- Python `markdown_text.split('\n')`: always at least one piece, empty
pieces kept. -/
def splitNL : Line → List Line
  | [] => [[]]
  | c :: cs =>
    if c = '\n' then [] :: splitNL cs
    else
      match splitNL cs with
      | l :: ls => (c :: l) :: ls
      | [] => [[c]]

/-- Python `line.split(sep)` for a one-character separator, used by the table
builder with `'|'`. -/
def splitOn (sep : Char) : Line → List Line
  | [] => [[]]
  | c :: cs =>
    if c = sep then [] :: splitOn sep cs
    else
      match splitOn sep cs with
      | l :: ls => (c :: l) :: ls
      | [] => [[c]]

/-- Python `text.replace(c, new)` for a one-character pattern; `escape_html`
chains three of these. -/
def repChar (c : Char) (new : Line) (l : Line) : Line :=
  l.flatMap fun x => if x = c then new else [x]

/-- `escape_html`: replace `&`, then `<`, then `>` by their entities, in the
source's order. -/
def escape_html (l : Line) : Line :=
  repChar '>' (toL "&gt;") (repChar '<' (toL "&lt;") (repChar '&' (toL "&amp;") l))

/-- Test that a line begins with a whitespace character, the `\s` head of
the lookahead patterns. -/
def wsHead (r : Line) : Bool :=
  match r with
  | c :: _ => isPySpace c
  | [] => false

/-- Tail of the patterns `\s+(.+)$` (headings and list items): after the
marker, one or more whitespace characters, then the captured text running to
the end of the line.  The greedy `\s+` takes the maximal whitespace run; when
nothing follows it, the engine backtracks one character so that `(.+)` can
match, which succeeds only when the whitespace run has length at least two
and then captures that single whitespace character. -/
def wsTextTail (r : Line) : Option Line :=
  let w := r.takeWhile isPySpace
  let t := r.dropWhile isPySpace
  if w.isEmpty then none
  else if !t.isEmpty then some t
  else if 2 ≤ w.length then some (w.drop (w.length - 1))
  else none

/-- `re.match(r'^(#{1,6})\s+(.+)$', line)`: level and captured text.  With
seven or more leading `#` the pattern fails, because after at most six `#`
the next character is another `#`, not whitespace. -/
def headingMatch (l : Line) : Option (Nat × Line) :=
  let n := (l.takeWhile (· = '#')).length
  if 1 ≤ n ∧ n ≤ 6 then (wsTextTail (l.drop n)).map fun t => (n, t)
  else none

/-- Body of `re.match(r'^(-{3,}|\*{3,}|_{3,})$', s)`: the whole string is
three or more copies of one of `-`, `*`, `_`. -/
def ruleCheck (s : Line) : Bool :=
  decide (3 ≤ s.length) && (s.all (· = '-') || s.all (· = '*') || s.all (· = '_'))

/-- The scanner's horizontal-rule test, applied to the stripped line. -/
def ruleMatch (l : Line) : Bool := ruleCheck (pyStrip l)

/-- `re.match(r'^(\s*)[-*+]\s+(.+)$', line)`: the captured item text (the
indentation is captured by the source but never used). -/
def ulistMatch (l : Line) : Option Line :=
  match l.dropWhile isPySpace with
  | c :: r => if c = '-' || c = '*' || c = '+' then wsTextTail r else none
  | [] => none

/-- `re.match(r'^(\s*)(\d+)\.\s+(.+)$', line)`: the captured item text. -/
def olistMatch (l : Line) : Option Line :=
  let r := l.dropWhile isPySpace
  let ds := r.takeWhile Char.isDigit
  if ds.isEmpty then none
  else
    match r.drop ds.length with
    | c :: r' => if c = '.' then wsTextTail r' else none
    | [] => none

/-- `re.match(r'^>\s*(.*)$', line)` succeeds exactly when the raw line starts
with `>`. -/
def bqStart (l : Line) : Bool :=
  decide (l.head? = some '>')

/-- Group 1 of `^>\s*(.*)$`: everything after the `>` and the maximal
whitespace run. -/
def bqCapture (l : Line) : Line :=
  (l.drop 1).dropWhile isPySpace

/-- `line.strip().startswith('```')`, the code-fence test. -/
def isFence (l : Line) : Bool :=
  (toL "```").isPrefixOf (pyStrip l)

/-- `'|' in line and line.strip().startswith('|')`, the table-line test. -/
def isTableLine (l : Line) : Bool :=
  l.contains '|' && decide ((pyStrip l).head? = some '|')

/-- The lookahead pattern `^#{1,6}\s+`: one to six `#`, then whitespace. -/
def headPat (s : Line) : Bool :=
  let n := (s.takeWhile (· = '#')).length
  decide (1 ≤ n) && decide (n ≤ 6) && wsHead (s.drop n)

/-- The lookahead pattern `^[-*+]\s+`: a bullet, then whitespace. -/
def ulistPat (s : Line) : Bool :=
  match s with
  | c :: r => (c = '-' || c = '*' || c = '+') && wsHead r
  | [] => false

/-- The lookahead pattern `^\d+\.\s+`: digits, a dot, then whitespace. -/
def olistPat (s : Line) : Bool :=
  let ds := s.takeWhile Char.isDigit
  !ds.isEmpty &&
    (match s.drop ds.length with
     | c :: r => c = '.' && wsHead r
     | [] => false)

/-- `is_special_line`: each of the seven patterns is matched against the
stripped line (`re.match(pattern, line.strip())`), in the source's order:
headers, unordered item, ordered item, blockquote, code fence, table,
horizontal rule. -/
def is_special_line (l : Line) : Bool :=
  let s := pyStrip l
  headPat s || ulistPat s || olistPat s
    || decide (s.head? = some '>')
    || (toL "```").isPrefixOf s
    || decide (s.head? = some '|')
    || ruleCheck s

/-- The disjunction of the block scanner's own rules 1–7, in the order the
scanner tests them: code fence, heading, horizontal rule, unordered item,
ordered item, blockquote, table row.  A line is "special to the scanner"
when any of them fires on it. -/
def scannerSpecial (l : Line) : Bool :=
  isFence l || (headingMatch l).isSome || ruleMatch l || (ulistMatch l).isSome
    || (olistMatch l).isSome || bqStart l || isTableLine l

/-- The placeholder `f"{{CODE_{k}}}"` that `_store_code` substitutes for the
k-th backtick code span. -/
def placeholder (k : Nat) : Line :=
  toL "\x7b\x7bCODE_" ++ toL (Nat.repr k) ++ toL "\x7d\x7d"

/-- Scanner for `re.sub(r'`([^`]+)`', _store_code, text)`.  The state is
`none` outside a potential span and `some acc` (content so far, reversed)
after an opening backtick.  A backtick right after an opening backtick
cannot start `[^`]+`, so the first backtick is left literal and the second
becomes the new opener; an unclosed opener is emitted literally at the end
of input.  Returns the rewritten text and the stored span contents in
order. -/
def ecGo : Nat → Option Line → Line → Line × List Line
  | _, none, [] => ([], [])
  | k, none, c :: cs =>
    if c = '`' then ecGo k (some []) cs
    else
      let r := ecGo k none cs
      (c :: r.1, r.2)
  | _, some acc, [] => ('`' :: acc.reverse, [])
  | k, some acc, c :: cs =>
    if c = '`' then
      if acc.isEmpty then
        let r := ecGo k (some []) cs
        ('`' :: r.1, r.2)
      else
        let r := ecGo (k + 1) none cs
        (placeholder k ++ r.1, acc.reverse :: r.2)
    else ecGo k (some (c :: acc)) cs

/-- Scanner for a symmetric two-character delimiter with a lazy body, that is
`re.sub(r'\*\*(.+?)\*\*', ...)`, `r'__(.+?)__'` and `r'~~(.+?)~~'` with
delimiter character `c`.  The state is `none` outside a match and `some acc`
(body so far, reversed) after an opening pair.  Lazily, the body closes at
the first delimiter pair once it is non-empty; a span that reaches the end
of input unclosed is emitted literally, which agrees with the `re` engine
because such a failure implies no further match exists in the remainder. -/
def sb2 (c : Char) (tagO tagC : Line) : Option Line → Line → Line
  | none, [] => []
  | none, [x] => [x]
  | none, x :: y :: cs =>
    if x = c ∧ y = c then sb2 c tagO tagC (some []) cs
    else x :: sb2 c tagO tagC none (y :: cs)
  | some acc, [] => c :: c :: acc.reverse
  | some acc, [x] => c :: c :: acc.reverse ++ [x]
  | some acc, x :: y :: cs =>
    if x = c ∧ y = c ∧ !acc.isEmpty then
      tagO ++ acc.reverse ++ tagC ++ sb2 c tagO tagC none cs
    else sb2 c tagO tagC (some (x :: acc)) (y :: cs)

/-- Scanner for a symmetric one-character delimiter with a lazy body:
`re.sub(r'\*(.+?)\*', ...)` with delimiter `c`. -/
def sb1 (c : Char) (tagO tagC : Line) : Option Line → Line → Line
  | none, [] => []
  | none, x :: cs =>
    if x = c then sb1 c tagO tagC (some []) cs
    else x :: sb1 c tagO tagC none cs
  | some acc, [] => c :: acc.reverse
  | some acc, x :: cs =>
    if x = c ∧ !acc.isEmpty then tagO ++ acc.reverse ++ tagC ++ sb1 c tagO tagC none cs
    else sb1 c tagO tagC (some (x :: acc)) cs

/-- Scanner for `re.sub(r'_(.+?)_', _italicize_underscore, text)`.  The first
argument is the character preceding the current scan position in the input of
this pass (`match.string[start-1]`); the second is `none` outside a match and
`some (p, acc)` inside one, where `p` is the character that preceded the
opening underscore.  On the lazy close, `_italicize_underscore` keeps the
matched text verbatim when either neighbour is alphanumeric and wraps the
body in `<i>`/`</i>` otherwise; either way the match is consumed and scanning
resumes after it. -/
def sbU : Option Char → Option (Option Char × Line) → Line → Line
  | _, none, [] => []
  | prev, none, x :: cs =>
    if x = '_' then sbU prev (some (prev, [])) cs
    else x :: sbU (some x) none cs
  | _, some (_, acc), [] => '_' :: acc.reverse
  | prev, some (p, acc), x :: cs =>
    if x = '_' ∧ !acc.isEmpty then
      if alnumO p || alnumO cs.head? then
        '_' :: acc.reverse ++ '_' :: sbU (some '_') none cs
      else toL "<i>" ++ acc.reverse ++ toL "</i>" ++ sbU (some '_') none cs
    else sbU prev (some (p, x :: acc)) cs

/-- State of the link scanner: outside a match, after `[` (text so far,
reversed), or after `](` (text and url so far, reversed). -/
inductive LinkSt where
  | out : LinkSt
  | one : Line → LinkSt
  | two : Line → Line → LinkSt

/-- The replacement `<link href="\2" color="blue"><u>\1</u></link>`. -/
def linkTag (text url : Line) : Line :=
  toL "<link href=\"" ++ url ++ toL "\" color=\"blue\"><u>" ++ text ++ toL "</u></link>"

/-- Scanner for `re.sub(r'\[(.+?)\]\((.+?)\)', ...)`.  Both bodies are lazy:
the text closes at the first `](` once non-empty and the url at the first `)`
once non-empty.  A pending `[` or `](` still open at the end of input is
emitted literally; as for the other scanners this matches the `re` engine,
whose backtracking over later `](` splits or later `[` openers provably fails
whenever the first attempt does. -/
def subLink : LinkSt → Line → Line
  | .out, [] => []
  | .out, c :: cs =>
    if c = '[' then subLink (.one []) cs
    else c :: subLink .out cs
  | .one acc, [] => '[' :: acc.reverse
  | .one acc, ']' :: '(' :: cs =>
    if acc.isEmpty then subLink (.one (']' :: acc)) ('(' :: cs)
    else subLink (.two acc []) cs
  | .one acc, c :: cs => subLink (.one (c :: acc)) cs
  | .two acc1 acc2, [] => '[' :: acc1.reverse ++ ']' :: '(' :: acc2.reverse
  | .two acc1 acc2, c :: cs =>
    if c = ')' ∧ !acc2.isEmpty then linkTag acc1.reverse acc2.reverse ++ subLink .out cs
    else subLink (.two acc1 (c :: acc2)) cs

/-- Python `text.replace(old, new)` restricted to a non-empty `old`: all
non-overlapping occurrences, left to right.  The `Nat` argument counts
characters of a just-matched occurrence still to be skipped. -/
def pyRepGo (old new : Line) : Nat → Line → Line
  | _ + 1, [] => []
  | skip + 1, _ :: cs => pyRepGo old new skip cs
  | 0, [] => []
  | 0, c :: cs =>
    if old.isPrefixOf (c :: cs) then new ++ pyRepGo old new (old.length - 1) cs
    else c :: pyRepGo old new 0 cs

/-- The restore loop: `for index, code in enumerate(code_spans):
text = text.replace(placeholder, font_tag)`, starting at index `k`. -/
def restoreGo : Nat → List Line → Line → Line
  | _, [], t => t
  | k, sp :: sps, t =>
    restoreGo (k + 1) sps
      (pyRepGo (placeholder k)
        (toL "<font name=\"Courier\" backColor=\"#f6f8fa\">" ++ sp ++ toL "</font>") 0 t)

/-- `process_inline_formatting`: escape `&`, `<`, `>`; pull backtick code
spans out into numbered placeholders; rewrite `**bold**`, `__bold__`,
`*italic*`, guarded `_italic_`, `[text](url)` links and `~~strike~~`, in
that order; finally substitute each placeholder by its stored span wrapped in
a Courier font tag. -/
def process_inline_formatting (t : Line) : Line :=
  let t1 := escape_html t
  let p := ecGo 0 none t1
  let t2 := sb2 '*' (toL "<b>") (toL "</b>") none p.1
  let t3 := sb2 '_' (toL "<b>") (toL "</b>") none t2
  let t4 := sb1 '*' (toL "<i>") (toL "</i>") none t3
  let t5 := sbU none none t4
  let t6 := subLink .out t5
  let t7 := sb2 '~' (toL "<strike>") (toL "</strike>") none t6
  restoreGo 0 p.2 t7

/-- Cell extraction of `parse_markdown_table`:
`[cell.strip() for cell in line.split('|')[1:-1]]`. -/
def splitCells (l : Line) : List Line :=
  (((splitOn '|' l).drop 1).dropLast).map pyStrip

/-- The data-row loop of `parse_markdown_table`: each remaining line is
cell-split; a line whose extraction yields no cells (`if cells:`) is skipped,
every other line contributes one row of escaped cells. -/
def buildRows : List Line → List (List Line)
  | [] => []
  | l :: ls =>
    let cells := splitCells l
    if cells.isEmpty then buildRows ls
    else cells.map escape_html :: buildRows ls

/-- The cell data `parse_markdown_table(table_lines)` hands to the `Table`
constructor: `None` below two lines, header cells from line 0, `None` below
three lines, otherwise the header row followed by the data rows built from
lines 2.. (line 1, the separator, is discarded unread); the cell texts are
HTML-escaped as the source wraps each cell in a `Paragraph` of its escaped
text.  The final `if not data` guard of the source is kept verbatim.  This
models the construction of `data`; the `Table(data, repeatRows=1)` call that
follows it in the source, whose reportlab constructor can raise, is modelled
by `tableCtorRaises` and `parse_markdown_table_exc` below. -/
def parse_markdown_table (table_lines : List Line) : Option (List (List Line)) :=
  if table_lines.length < 2 then none
  else
    let header_cells := splitCells (table_lines.headD [])
    if table_lines.length < 3 then none
    else
      let header_row := header_cells.map escape_html
      let data := header_row :: buildRows (table_lines.drop 2)
      if data.isEmpty then none else some data

/-- The validation reportlab performs in `Table.__init__` on the cell data:
with `nrows = len(data)` and `ncols` the maximum row length, the constructor
raises `ValueError` when `nrows` or `ncols` is zero (the default
`emptyTableAction` is `error`).  A list of lists has zero rows or zero
columns exactly when every row is empty. -/
def tableCtorRaises (data : List (List Line)) : Bool :=
  data.all (fun r => r.isEmpty)

/-- `parse_markdown_table` with the `Table(data, repeatRows=1)` constructor
call made explicit: the built data reaches the constructor, which raises
`ValueError` (modelled as `Except.error ()`) when the data has zero columns
— for the data built here, when the header extracted no cells and every
data line was dropped — and otherwise the constructed table is returned. -/
def parse_markdown_table_exc (tls : List Line) : Except Unit (Option (List (List Line))) :=
  match parse_markdown_table tls with
  | none => Except.ok none
  | some data =>
    if tableCtorRaises data then Except.error () else Except.ok (some data)

/-- Paragraph styles of `create_styles` that `markdown_to_reportlab` attaches
to emitted `Paragraph` flowables. -/
inductive ParaStyle where
  | customH : Nat → ParaStyle
  | customBody : ParaStyle
  | customBlockquote : ParaStyle
deriving DecidableEq, Repr

/-- The two values of the scanner's `list_type` state. -/
inductive LTy where
  | bullet : LTy
  | number : LTy
deriving DecidableEq, Repr

/-- One element of the `story` list that `markdown_to_reportlab` returns:
a styled `Paragraph`, a `Preformatted` code block, a `Spacer`, the
one-cell rule `Table` drawn with a line above (emitted between two spacers
for a horizontal rule), a markdown `Table` (its rows of escaped cell texts),
or a `ListFlowable` with its bullet type and item texts. -/
inductive Block where
  | para : ParaStyle → Line → Block
  | pre : Line → Block
  | spacer : Block
  | ruleLine : Block
  | table : List (List Line) → Block
  | list : LTy → List Line → Block
deriving DecidableEq, Repr

/-- The scanner's open-list state: `none` when `in_list` is false, otherwise
the `list_type` and the inline-formatted `list_items` collected so far. -/
abbrev ListSt := Option (LTy × List Line)

/-- `create_list` flushing: the `story.append(create_list(...))` performed
whenever an open list is closed. -/
def flushL : ListSt → List Block
  | none => []
  | some (ty, items) => [.list ty items]

/-- The scanner's position in its input: the plain line-by-line state, inside
a fenced code block with the `code_block_lines` buffer, or inside one of the
three greedy lookahead loops (blockquote captures, table candidate lines,
paragraph lines collected so far). -/
inductive Mode where
  | normal : Mode
  | inCode : List Line → Mode
  | inBq : List Line → Mode
  | inTable : List Line → Mode
  | inPara : List Line → Mode
deriving DecidableEq, Repr

/-- The blocks a finished table candidate contributes: the parsed table, or
nothing when `parse_markdown_table` returns `None`.  This is the collapsed
form that ignores the `Table` constructor error path; `tableBlocksE` below
makes that path explicit, and the two agree whenever the constructor does
not raise. -/
def tableBlocks (tls : List Line) : List Block :=
  match parse_markdown_table tls with
  | some data => [.table data]
  | none => []

/-- The blocks a finished table candidate contributes, with the `Table`
constructor error path made explicit: the `ValueError` that reportlab raises
on zero-column data propagates, `None` contributes nothing, and a
constructed table contributes one block. -/
def tableBlocksE (tls : List Line) : Except Unit (List Block) :=
  match parse_markdown_table tls with
  | none => Except.ok []
  | some data =>
    if tableCtorRaises data then Except.error () else Except.ok [Block.table data]

/-- The list-item logic shared by the unordered and ordered branches: if no
list is open or the open list's kind differs, flush the open list (if any)
and start a new one; then append the item's formatted text. -/
def listStep (ty : LTy) (text : Line) : ListSt → List Block × Mode × ListSt
  | some (ty0, items) =>
    if ty0 = ty then ([], .normal, some (ty0, items ++ [text]))
    else ([.list ty0 items], .normal, some (ty, [text]))
  | none => ([], .normal, some (ty, [text]))

/-- One iteration of the `markdown_to_reportlab` loop body on a line met in
the plain state, with the branches in the source's order: code fence (enter
code mode, list untouched), heading, horizontal rule (spacer, lined table,
spacer), unordered item, ordered item, blockquote (enter the blockquote
lookahead), table line (enter the table lookahead), blank line (spacer),
plain text (enter the paragraph lookahead).  Returns the blocks emitted at
once, the successor mode and the list state. -/
def dispatch (l : Line) (ls : ListSt) : List Block × Mode × ListSt :=
  if isFence l then ([], .inCode [], ls)
  else
    match headingMatch l with
    | some (n, text) =>
      (flushL ls ++ [.para (.customH n) (process_inline_formatting text)], .normal, none)
    | none =>
      if ruleMatch l then (flushL ls ++ [.spacer, .ruleLine, .spacer], .normal, none)
      else
        match ulistMatch l with
        | some text => listStep .bullet (process_inline_formatting text) ls
        | none =>
          match olistMatch l with
          | some text => listStep .number (process_inline_formatting text) ls
          | none =>
            if bqStart l then (flushL ls, .inBq [bqCapture l], none)
            else if isTableLine l then (flushL ls, .inTable [l], none)
            else if (pyStrip l).isEmpty then (flushL ls ++ [.spacer], .normal, none)
            else (flushL ls, .inPara [l], none)

/-- The paragraph lookahead's continuation test:
`lines[i].strip() and not is_special_line(lines[i])`. -/
def paraCont (l : Line) : Bool :=
  !(pyStrip l).isEmpty && !is_special_line l

/-- The `while i < len(lines)` loop of `markdown_to_reportlab` over the
remaining lines.  In code mode a fence line emits the buffered lines joined
with newlines, escaped, as one `Preformatted` block, and any other line is
buffered; at end of input the buffer is discarded and only an open list is
flushed.  The three lookahead loops consume matching lines greedily; at
their first non-matching line they emit their block (joining blockquote
captures and paragraph lines with single spaces, handing the table candidate
to `parse_markdown_table`) and the scanner reprocesses that line in the
plain state.  This is the story computation with the `Table` constructor
error path collapsed: `scanE` below makes that path explicit and agrees
with `scan` exactly on the inputs where no flushed candidate makes the
constructor raise. -/
def scan : List Line → Mode → ListSt → List Block
  | [], m, ls =>
    match m with
    | .normal => flushL ls
    | .inCode _ => flushL ls
    | .inBq caps =>
      .para .customBlockquote (process_inline_formatting (List.intercalate [' '] caps))
        :: flushL ls
    | .inTable tls => tableBlocks tls ++ flushL ls
    | .inPara pls =>
      .para .customBody (process_inline_formatting (List.intercalate [' '] pls))
        :: flushL ls
  | l :: rest, m, ls =>
    match m with
    | .normal =>
      let s := dispatch l ls
      s.1 ++ scan rest s.2.1 s.2.2
    | .inCode buf =>
      if isFence l then
        .pre (escape_html (List.intercalate ['\n'] buf)) :: scan rest .normal ls
      else scan rest (.inCode (buf ++ [l])) ls
    | .inBq caps =>
      if bqStart l then scan rest (.inBq (caps ++ [bqCapture l])) ls
      else
        .para .customBlockquote (process_inline_formatting (List.intercalate [' '] caps))
          :: (let s := dispatch l ls; s.1 ++ scan rest s.2.1 s.2.2)
    | .inTable tls =>
      if isTableLine l then scan rest (.inTable (tls ++ [l])) ls
      else
        tableBlocks tls ++ (let s := dispatch l ls; s.1 ++ scan rest s.2.1 s.2.2)
    | .inPara pls =>
      if paraCont l then scan rest (.inPara (pls ++ [l])) ls
      else
        .para .customBody (process_inline_formatting (List.intercalate [' '] pls))
          :: (let s := dispatch l ls; s.1 ++ scan rest s.2.1 s.2.2)

/-- `markdown_to_reportlab` on the already-split line list: scan from the
initial state (`in_code_block = False`, `in_list = False`). -/
def markdownToStory (l : Line) : List Block :=
  scan (splitNL l) .normal none

/-- `markdown_to_reportlab(markdown_text)`: split the input on newlines and
scan. -/
def markdown_to_reportlab (s : String) : List Block :=
  markdownToStory s.toList

/-- The `while i < len(lines)` loop with the `Table` constructor error path
made explicit: identical to `scan` branch for branch except that flushing a
table candidate goes through `tableBlocksE`, so the `ValueError` raised on a
zero-column candidate propagates out of the whole conversion (discarding the
story built so far, as a Python exception does); no other branch of the
source raises. -/
def scanE : List Line → Mode → ListSt → Except Unit (List Block)
  | [], m, ls =>
    match m with
    | .normal => Except.ok (flushL ls)
    | .inCode _ => Except.ok (flushL ls)
    | .inBq caps =>
      Except.ok
        (.para .customBlockquote (process_inline_formatting (List.intercalate [' '] caps))
          :: flushL ls)
    | .inTable tls => (tableBlocksE tls).map (· ++ flushL ls)
    | .inPara pls =>
      Except.ok
        (.para .customBody (process_inline_formatting (List.intercalate [' '] pls))
          :: flushL ls)
  | l :: rest, m, ls =>
    match m with
    | .normal =>
      let s := dispatch l ls
      (scanE rest s.2.1 s.2.2).map (s.1 ++ ·)
    | .inCode buf =>
      if isFence l then
        (scanE rest .normal ls).map
          (.pre (escape_html (List.intercalate ['\n'] buf)) :: ·)
      else scanE rest (.inCode (buf ++ [l])) ls
    | .inBq caps =>
      if bqStart l then scanE rest (.inBq (caps ++ [bqCapture l])) ls
      else
        let s := dispatch l ls
        (scanE rest s.2.1 s.2.2).map
          (fun t =>
            .para .customBlockquote (process_inline_formatting (List.intercalate [' '] caps))
              :: (s.1 ++ t))
    | .inTable tls =>
      if isTableLine l then scanE rest (.inTable (tls ++ [l])) ls
      else
        match tableBlocksE tls with
        | Except.error e => Except.error e
        | Except.ok bs =>
          let s := dispatch l ls
          (scanE rest s.2.1 s.2.2).map (fun t => bs ++ (s.1 ++ t))
    | .inPara pls =>
      if paraCont l then scanE rest (.inPara (pls ++ [l])) ls
      else
        let s := dispatch l ls
        (scanE rest s.2.1 s.2.2).map
          (fun t =>
            .para .customBody (process_inline_formatting (List.intercalate [' '] pls))
              :: (s.1 ++ t))

/-- `markdown_to_reportlab` on the already-split line list, error path
included. -/
def markdownToStoryE (l : Line) : Except Unit (List Block) :=
  scanE (splitNL l) .normal none

/-- `markdown_to_reportlab(markdown_text)` with the `Table` constructor
error path made explicit: `Except.error ()` stands for the `ValueError`
propagating out of the function. -/
def markdown_to_reportlab_exc (s : String) : Except Unit (List Block) :=
  markdownToStoryE s.toList

/-- The scanner bounded by a fuel counter of loop iterations, mirroring
`scanE` branch for branch: each iteration consumes exactly one line, the
formal counterpart of the source loop's strictly advancing line index.  The
fuel-exhaustion fallback returns the empty story; the termination theorem
shows it is never reached once the fuel exceeds the number of lines. -/
def scanFuelE : Nat → List Line → Mode → ListSt → Except Unit (List Block)
  | 0, _, _, _ => Except.ok []
  | _ + 1, [], m, ls =>
    match m with
    | .normal => Except.ok (flushL ls)
    | .inCode _ => Except.ok (flushL ls)
    | .inBq caps =>
      Except.ok
        (.para .customBlockquote (process_inline_formatting (List.intercalate [' '] caps))
          :: flushL ls)
    | .inTable tls => (tableBlocksE tls).map (· ++ flushL ls)
    | .inPara pls =>
      Except.ok
        (.para .customBody (process_inline_formatting (List.intercalate [' '] pls))
          :: flushL ls)
  | f + 1, l :: rest, m, ls =>
    match m with
    | .normal =>
      let s := dispatch l ls
      (scanFuelE f rest s.2.1 s.2.2).map (s.1 ++ ·)
    | .inCode buf =>
      if isFence l then
        (scanFuelE f rest .normal ls).map
          (.pre (escape_html (List.intercalate ['\n'] buf)) :: ·)
      else scanFuelE f rest (.inCode (buf ++ [l])) ls
    | .inBq caps =>
      if bqStart l then scanFuelE f rest (.inBq (caps ++ [bqCapture l])) ls
      else
        let s := dispatch l ls
        (scanFuelE f rest s.2.1 s.2.2).map
          (fun t =>
            .para .customBlockquote (process_inline_formatting (List.intercalate [' '] caps))
              :: (s.1 ++ t))
    | .inTable tls =>
      if isTableLine l then scanFuelE f rest (.inTable (tls ++ [l])) ls
      else
        match tableBlocksE tls with
        | Except.error e => Except.error e
        | Except.ok bs =>
          let s := dispatch l ls
          (scanFuelE f rest s.2.1 s.2.2).map (fun t => bs ++ (s.1 ++ t))
    | .inPara pls =>
      if paraCont l then scanFuelE f rest (.inPara (pls ++ [l])) ls
      else
        let s := dispatch l ls
        (scanFuelE f rest s.2.1 s.2.2).map
          (fun t =>
            .para .customBody (process_inline_formatting (List.intercalate [' '] pls))
              :: (s.1 ++ t))

/-- A maximal uniformly-styled piece of the formatter's output markup, the
`Run` of the specification's data model: style flags and text. -/
structure Run where
  bold : Bool
  italic : Bool
  strike : Bool
  code : Bool
  text : Line
deriving DecidableEq, Repr

/-- Helper of `runsOf`: prepend a run for the accumulated text (reversed in
`acc`) unless it is empty. -/
def runsFlush (b i s k : Bool) (acc : Line) (rs : List Run) : List Run :=
  if acc.isEmpty then rs else ⟨b, i, s, k, acc.reverse⟩ :: rs

/-- Interprets the reportlab markup string produced by
`process_inline_formatting` as a run sequence: `<b>`, `<i>`, `<strike>` and
their closers toggle the matching flag, the Courier font tag that the
formatter emits for a restored code span and `</font>` toggle the code flag,
and every other character is literal text.  The `Nat` argument counts
characters of a just-recognised tag still to be skipped. -/
def runsGo (b i s k : Bool) (acc : Line) : Nat → Line → List Run
  | _ + 1, [] => runsFlush b i s k acc []
  | skip + 1, _ :: cs => runsGo b i s k acc skip cs
  | 0, [] => runsFlush b i s k acc []
  | 0, c :: cs =>
    if (toL "<b>").isPrefixOf (c :: cs) then
      runsFlush b i s k acc (runsGo true i s k [] 2 cs)
    else if (toL "</b>").isPrefixOf (c :: cs) then
      runsFlush b i s k acc (runsGo false i s k [] 3 cs)
    else if (toL "<i>").isPrefixOf (c :: cs) then
      runsFlush b i s k acc (runsGo b true s k [] 2 cs)
    else if (toL "</i>").isPrefixOf (c :: cs) then
      runsFlush b i s k acc (runsGo b false s k [] 3 cs)
    else if (toL "<strike>").isPrefixOf (c :: cs) then
      runsFlush b i s k acc (runsGo b i true k [] 7 cs)
    else if (toL "</strike>").isPrefixOf (c :: cs) then
      runsFlush b i s k acc (runsGo b i false k [] 8 cs)
    else if (toL "<font name=\"Courier\" backColor=\"#f6f8fa\">").isPrefixOf (c :: cs) then
      runsFlush b i s k acc (runsGo b i s true [] 40 cs)
    else if (toL "</font>").isPrefixOf (c :: cs) then
      runsFlush b i s k acc (runsGo b i s false [] 6 cs)
    else runsGo b i s k (c :: acc) 0 cs

/-- The run sequence denoted by a formatter output. -/
def runsOf (t : Line) : List Run :=
  runsGo false false false false [] 0 t

/-! ## Supporting lemmas -/

/-- While in code mode, lines that are not closing fences are only buffered:
if no fence follows, nothing is ever emitted for them. -/
theorem scan_inCode_no_fence (ls buf : List Line)
    (h : ∀ l ∈ ls, isFence l = false) :
    scan ls (Mode.inCode buf) none = [] := by
  induction ls generalizing buf with
  | nil => rfl
  | cons l rest ih =>
    have hf : isFence l = false := h l (by simp)
    simp only [scan, hf, Bool.false_eq_true, if_false]
    exact ih (buf ++ [l]) (fun x hx => h x (by simp [hx]))

/-- Splitting a run of newline characters yields one more empty line. -/
theorem splitNL_replicate (n : Nat) :
    splitNL (List.replicate n '\n') = List.replicate (n + 1) ([] : Line) := by
  induction n with
  | zero => rfl
  | succ k ih => simp [List.replicate_succ, splitNL, ih]

/-- Scanning empty lines from the plain state emits one spacer per line. -/
theorem scan_blank_lines (m : Nat) :
    scan (List.replicate m ([] : Line)) .normal none = List.replicate m .spacer := by
  induction m with
  | zero => rfl
  | succ k ih =>
    rw [List.replicate_succ, List.replicate_succ]
    have hd : dispatch [] none = ([Block.spacer], Mode.normal, none) := rfl
    simp only [scan, hd]
    simp [ih]

/-- The data-row loop keeps exactly the lines whose cell extraction is
non-empty, each as its row of escaped cells. -/
theorem buildRows_eq_filterMap (ls : List Line) :
    buildRows ls = ls.filterMap fun l =>
      if (splitCells l).isEmpty then none
      else some ((splitCells l).map escape_html) := by
  induction ls with
  | nil => rfl
  | cons l rest ih =>
    rw [List.filterMap_cons]
    by_cases h : splitCells l = []
    · have hb : (splitCells l).isEmpty = true := by simp [h]
      simp [buildRows, hb, h, ih]
    · have hb : ¬ (splitCells l).isEmpty = true := by simp [h]
      simp [buildRows, hb, h, ih]

/-! ## The claims -/

/-- C1, counterexample: on the input whose first line is an unterminated
code fence and whose remainder is the line `hello`, the story is empty — no
code block containing `hello` (nor any block at all) is emitted, refuting
the claim that the remainder becomes a code block in the output. -/
theorem unterminated_fence_cex : markdown_to_reportlab "```\nhello" = [] := by decide

/-- C1 (amended): after an unterminated opening fence the scanner buffers
every subsequent line verbatim and raises no error, but at end of input the
buffer is discarded: with no open list, no block at all is emitted for the
remainder of the document. -/
theorem unterminated_fence_swallows (ls : List Line)
    (h : ∀ l ∈ ls, isFence l = false) :
    scan (toL "```" :: ls) .normal none = [] := by
  have hf : isFence (toL "```") = true := by decide
  have hd : dispatch (toL "```") none = ([], Mode.inCode [], none) := by
    simp [dispatch, hf]
  simp only [scan, hd]
  simpa using scan_inCode_no_fence ls [] h

/-- C1, witness: the amended theorem at the concrete remainder `hello`. -/
theorem unterminated_fence_swallows_witness :
    scan (toL "```" :: [toL "hello"]) .normal none = [] :=
  unterminated_fence_swallows [toL "hello"] (by decide)

/-- C3, counterexample: the empty input yields a story holding one spacer,
not an empty block sequence — the single blank line contributed an
element. -/
theorem blank_line_cex : markdown_to_reportlab "" = [Block.spacer] := by decide

/-- C3 (amended): a blank line contributes exactly one spacer element and no
semantic block; an input of n newline characters (n+1 blank lines) yields a
story of exactly n+1 spacers, so the empty string yields one spacer rather
than an empty sequence. -/
theorem blank_lines_only_spacers (n : Nat) :
    markdownToStory (List.replicate n '\n') = List.replicate (n + 1) Block.spacer := by
  rw [markdownToStory, splitNL_replicate]
  exact scan_blank_lines (n + 1)

/-- C3, witness: the amended theorem at two newline characters. -/
theorem blank_lines_only_spacers_witness :
    markdownToStory (List.replicate 2 '\n') = List.replicate 3 Block.spacer :=
  blank_lines_only_spacers 2

/-- C5, counterexample: in the three-line candidate whose data line is the
single character `|`, cell extraction of that data line yields no cells and
the line is dropped: the parsed data holds only the header row, so not every
data line of a length-3 candidate becomes an entry of the table's rows. -/
theorem ragged_row_dropped_cex :
    parse_markdown_table [toL "| A | B |", toL "| - | - |", toL "|"] =
      some [[toL "A", toL "B"]] := by decide

/-- C5 (amended): in every table candidate of at least 3 lines, every data
line whose cell extraction yields at least one cell becomes exactly one
entry of the table's rows, cell-split the same way as the header with its
cell count preserved as-is (never padded or truncated, even when it differs
from the header's); a data line whose extraction yields no cells (fewer
than two `|` characters) is dropped. -/
theorem table_rows_preserved (t0 t1 r : Line) (rs : List Line) :
    parse_markdown_table (t0 :: t1 :: r :: rs) =
      some (((splitCells t0).map escape_html) ::
        ((r :: rs).filterMap fun l =>
          if (splitCells l).isEmpty then none
          else some ((splitCells l).map escape_html))) := by
  have h2 : ¬ ((t0 :: t1 :: r :: rs).length < 2) := by simp
  have h3 : ¬ ((t0 :: t1 :: r :: rs).length < 3) := by simp
  simp [parse_markdown_table, h2, h3, buildRows_eq_filterMap]

/-- C5, witness: the amended theorem at a concrete ragged candidate. -/
theorem table_rows_preserved_witness :
    parse_markdown_table [toL "| A | B |", toL "| - | - |", toL "| X |"] =
      some (((splitCells (toL "| A | B |")).map escape_html) ::
        (([toL "| X |"]).filterMap fun l =>
          if (splitCells l).isEmpty then none
          else some ((splitCells l).map escape_html))) :=
  table_rows_preserved (toL "| A | B |") (toL "| - | - |") (toL "| X |") []

/-- C6: a table candidate of fewer than 3 lines produces no table, and the
two-line input of a header and separator row yields no block at all. -/
theorem short_table_candidate_dropped :
    (∀ tls : List Line, tls.length < 3 → parse_markdown_table tls = none) ∧
      markdown_to_reportlab "| A | B |\n| - | - |" = [] := by
  refine ⟨fun tls h => ?_, by decide⟩
  by_cases h2 : tls.length < 2
  · simp [parse_markdown_table, h2]
  · simp [parse_markdown_table, h2, h]

/-- C6, witness: the universally quantified half of the theorem at the
concrete two-line candidate. -/
theorem short_table_candidate_dropped_witness :
    parse_markdown_table [toL "| A | B |", toL "| - | - |"] = none :=
  short_table_candidate_dropped.1 [toL "| A | B |", toL "| - | - |"] (by decide)

/-- Every row kept by the data-row loop holds at least one cell, so the
built data rows are all empty exactly when there are none. -/
theorem buildRows_all_isEmpty (ls : List Line) :
    ((buildRows ls).all fun r => r.isEmpty) = (buildRows ls).isEmpty := by
  induction ls with
  | nil => rfl
  | cons l t ih =>
    by_cases hc : (splitCells l).isEmpty
    · simp only [buildRows, hc, if_true]
      exact ih
    · simp only [buildRows, hc, Bool.false_eq_true, if_false, List.all_cons,
        List.isEmpty_cons, List.isEmpty_eq_true, List.map_eq_nil_iff, Bool.and_eq_false_iff]
      left
      simpa using hc

/-- A successful `tableBlocksE` flush contributes exactly the blocks of the
collapsed `tableBlocks`. -/
theorem tableBlocksE_ok (tls : List Line) (bs : List Block)
    (h : tableBlocksE tls = Except.ok bs) : bs = tableBlocks tls := by
  cases hp : parse_markdown_table tls with
  | none =>
    simp only [tableBlocksE, hp, Except.ok.injEq] at h
    simp [tableBlocks, hp, ← h]
  | some d =>
    by_cases hr : tableCtorRaises d
    · simp [tableBlocksE, hp, hr] at h
    · simp only [tableBlocksE, hp, hr, Bool.false_eq_true, if_false, Except.ok.injEq] at h
      simp [tableBlocks, hp, ← h]

/-- The exception-aware scanner either raises or returns exactly the story
of the collapsed scanner. -/
theorem scanE_agrees (lines : List Line) : ∀ (m : Mode) (ls : ListSt),
    scanE lines m ls = Except.error () ∨
      scanE lines m ls = Except.ok (scan lines m ls) := by
  induction lines with
  | nil =>
    intro m ls
    cases m with
    | normal => exact Or.inr rfl
    | inCode buf => exact Or.inr rfl
    | inBq caps => exact Or.inr rfl
    | inPara pls => exact Or.inr rfl
    | inTable tls =>
      cases hb : tableBlocksE tls with
      | error e =>
        left
        simp [scanE, Except.map, hb]
      | ok bs =>
        right
        simp [scanE, scan, Except.map, hb, tableBlocksE_ok tls bs hb]
  | cons l rest ih =>
    intro m ls
    cases m with
    | normal =>
      rcases ih (dispatch l ls).2.1 (dispatch l ls).2.2 with h | h
      · left
        simp [scanE, Except.map, h]
      · right
        simp [scanE, scan, Except.map, h]
    | inCode buf =>
      by_cases hf : isFence l
      · rcases ih .normal ls with h | h
        · left
          simp [scanE, Except.map, hf, h]
        · right
          simp [scanE, scan, Except.map, hf, h]
      · rcases ih (.inCode (buf ++ [l])) ls with h | h
        · left
          simp [scanE, Except.map, hf, h]
        · right
          simp [scanE, scan, Except.map, hf, h]
    | inBq caps =>
      by_cases hb : bqStart l
      · rcases ih (.inBq (caps ++ [bqCapture l])) ls with h | h
        · left
          simp [scanE, Except.map, hb, h]
        · right
          simp [scanE, scan, Except.map, hb, h]
      · rcases ih (dispatch l ls).2.1 (dispatch l ls).2.2 with h | h
        · left
          simp [scanE, Except.map, hb, h]
        · right
          simp [scanE, scan, Except.map, hb, h]
    | inTable tls =>
      by_cases ht : isTableLine l
      · rcases ih (.inTable (tls ++ [l])) ls with h | h
        · left
          simp [scanE, Except.map, ht, h]
        · right
          simp [scanE, scan, Except.map, ht, h]
      · cases hb : tableBlocksE tls with
        | error e =>
          left
          simp [scanE, Except.map, ht, hb]
        | ok bs =>
          rcases ih (dispatch l ls).2.1 (dispatch l ls).2.2 with h | h
          · left
            simp [scanE, Except.map, ht, hb, h]
          · right
            simp [scanE, scan, Except.map, ht, hb, h, tableBlocksE_ok tls bs hb]
    | inPara pls =>
      by_cases hp : paraCont l
      · rcases ih (.inPara (pls ++ [l])) ls with h | h
        · left
          simp [scanE, Except.map, hp, h]
        · right
          simp [scanE, scan, Except.map, hp, h]
      · rcases ih (dispatch l ls).2.1 (dispatch l ls).2.2 with h | h
        · left
          simp [scanE, Except.map, hp, h]
        · right
          simp [scanE, scan, Except.map, hp, h]

/-- C9, counterexample: the conversion is not raise-free.  On the input of
three lines each holding the single character `|`, the whole input is one
table candidate; its header extracts zero cells and both data lines are
dropped, so the built data holds one empty row, and the zero-column data
makes the `Table` constructor raise `ValueError`, which propagates out of
`markdown_to_reportlab` instead of a Document being returned. -/
theorem convert_raises_cex :
    markdown_to_reportlab_exc "|\n|\n|" = Except.error () := by rfl

/-- C9 (amended): for every input string the conversion terminates, because
every iteration of the scanner loop — including the blockquote, table and
paragraph lookaheads — consumes exactly one line (the strictly advancing
line index): any fuel bound exceeding the number of lines is enough for the
fuelled scanner to agree with the unbounded one.  But the conversion is not
raise-free: it either returns the story or propagates the `ValueError` that
the reportlab `Table` constructor raises when a flushed table candidate
builds zero-column data — the only raising branch. -/
theorem convert_terminates_or_raises :
    (∀ (f : Nat) (lines : List Line) (m : Mode) (ls : ListSt),
        lines.length < f → scanFuelE f lines m ls = scanE lines m ls) ∧
      (∀ s : String,
        markdown_to_reportlab_exc s = Except.error () ∨
          markdown_to_reportlab_exc s = Except.ok (markdown_to_reportlab s)) := by
  refine ⟨fun f => ?_, fun s => scanE_agrees _ _ _⟩
  induction f with
  | zero => intro lines m ls h; exact absurd h (Nat.not_lt_zero _)
  | succ g ih =>
    intro lines m ls h
    cases lines with
    | nil => cases m <;> rfl
    | cons l rest =>
      have hr : rest.length < g := by
        simp only [List.length_cons] at h
        omega
      cases m with
      | normal =>
        simp only [scanFuelE, scanE]
        rw [ih rest _ _ hr]
      | inCode buf =>
        by_cases hf : isFence l
        · simp only [scanFuelE, scanE, hf, if_true]
          rw [ih rest _ _ hr]
        · simp only [scanFuelE, scanE, hf, Bool.false_eq_true, if_false]
          rw [ih rest _ _ hr]
      | inBq caps =>
        by_cases hb : bqStart l
        · simp only [scanFuelE, scanE, hb, if_true]
          rw [ih rest _ _ hr]
        · simp only [scanFuelE, scanE, hb, Bool.false_eq_true, if_false]
          rw [ih rest _ _ hr]
      | inTable tls =>
        by_cases ht : isTableLine l
        · simp only [scanFuelE, scanE, ht, if_true]
          rw [ih rest _ _ hr]
        · cases hb : tableBlocksE tls with
          | error e =>
            simp only [scanFuelE, scanE, ht, Bool.false_eq_true, if_false, hb]
          | ok bs =>
            simp only [scanFuelE, scanE, ht, Bool.false_eq_true, if_false, hb]
            rw [ih rest _ _ hr]
      | inPara pls =>
        by_cases hp : paraCont l
        · simp only [scanFuelE, scanE, hp, if_true]
          rw [ih rest _ _ hr]
        · simp only [scanFuelE, scanE, hp, Bool.false_eq_true, if_false]
          rw [ih rest _ _ hr]

/-- C9, witness: the fuel bound at a concrete input — two iterations settle
the one-line input `x` — and the raise-or-return alternative at the raising
input of three `|` lines. -/
theorem convert_terminates_or_raises_witness :
    scanFuelE 2 [toL "x"] Mode.normal none = scanE [toL "x"] Mode.normal none ∧
      (markdown_to_reportlab_exc "|\n|\n|" = Except.error () ∨
        markdown_to_reportlab_exc "|\n|\n|" =
          Except.ok (markdown_to_reportlab "|\n|\n|")) :=
  ⟨convert_terminates_or_raises.1 2 [toL "x"] Mode.normal none (by decide),
    convert_terminates_or_raises.2 "|\n|\n|"⟩

/-- C10, counterexample: at the three-line candidate of `|`,`|`,`|` both
length guards pass and the header row is included unconditionally, but the
header extracts zero cells and both data lines are dropped, so the built
data holds one empty row: the `Table` constructor raises `ValueError` on the
zero-column data instead of a table being returned. -/
theorem table_ctor_raises_cex :
    parse_markdown_table_exc [toL "|", toL "|", toL "|"] = Except.error () := by rfl

/-- C10 (amended): for a table candidate of at least 3 lines the header row
is included unconditionally, so the built data is non-empty and the final
empty-data fallback returning the no-table outcome is unreachable; but the
builder does not always return a table: the `Table` constructor raises
`ValueError` exactly when the header extracts zero cells and every data
line is dropped, the zero-column case. -/
theorem table_of_three_lines_builds (tls : List Line) (h : 3 ≤ tls.length) :
    parse_markdown_table_exc tls ≠ Except.ok none ∧
      (parse_markdown_table_exc tls = Except.error () ↔
        splitCells (tls.headD []) = [] ∧ buildRows (tls.drop 2) = []) := by
  have h2 : ¬ (tls.length < 2) := by omega
  have h3 : ¬ (tls.length < 3) := by omega
  have hp : parse_markdown_table tls =
      some (((splitCells (tls.headD [])).map escape_html) :: buildRows (tls.drop 2)) := by
    simp [parse_markdown_table, h2, h3]
  have hmapE : ((splitCells (tls.headD [])).map escape_html).isEmpty =
      (splitCells (tls.headD [])).isEmpty := by
    cases splitCells (tls.headD []) <;> rfl
  have hraise :
      tableCtorRaises (((splitCells (tls.headD [])).map escape_html) :: buildRows (tls.drop 2)) =
        ((splitCells (tls.headD [])).isEmpty && (buildRows (tls.drop 2)).isEmpty) := by
    simp only [tableCtorRaises, List.all_cons, buildRows_all_isEmpty, hmapE]
  have he : parse_markdown_table_exc tls =
      if ((splitCells (tls.headD [])).isEmpty && (buildRows (tls.drop 2)).isEmpty) = true
      then Except.error ()
      else Except.ok (some (((splitCells (tls.headD [])).map escape_html) ::
        buildRows (tls.drop 2))) := by
    unfold parse_markdown_table_exc
    rw [hp]
    simp only [hraise]
  rw [he]
  by_cases hc : ((splitCells (tls.headD [])).isEmpty && (buildRows (tls.drop 2)).isEmpty) = true
  · have hc2 : splitCells (tls.headD []) = [] ∧ buildRows (tls.drop 2) = [] := by
      simpa using hc
    rw [if_pos hc]
    exact ⟨by simp, iff_of_true rfl hc2⟩
  · have hc2 : ¬ (splitCells (tls.headD []) = [] ∧ buildRows (tls.drop 2) = []) := by
      simpa using hc
    rw [if_neg hc]
    exact ⟨by simp, iff_of_false (by simp) hc2⟩

/-- C10, witness: the amended theorem at a candidate whose header extracts
one cell, so the constructor does not raise. -/
theorem table_of_three_lines_builds_witness :
    parse_markdown_table_exc [toL "| A |", toL "|", toL "|"] ≠ Except.ok none ∧
      (parse_markdown_table_exc [toL "| A |", toL "|", toL "|"] = Except.error () ↔
        splitCells (([toL "| A |", toL "|", toL "|"] : List Line).headD []) = [] ∧
          buildRows (([toL "| A |", toL "|", toL "|"] : List Line).drop 2) = []) :=
  table_of_three_lines_builds [toL "| A |", toL "|", toL "|"] (by decide)

/-- C2, counterexample: in `**a `b` c**` the code span's placeholder sits
inside a matched bold span, and the restored code run is emitted inside the
bold tags: the formatter's output contains a run that is both code and
bold. -/
theorem code_run_inside_bold_cex :
    (runsOf (process_inline_formatting (toL "**a `b` c**"))).any
      (fun r => r.code && r.bold) = true := by decide
/-- A single-character replace is the identity on text free of that
character. -/
theorem repChar_id (c : Char) (new : Line) :
    ∀ l : Line, (∀ x ∈ l, x ≠ c) → repChar c new l = l := by
  intro l
  induction l with
  | nil => intro _; rfl
  | cons a t ih =>
    intro h
    have ha : a ≠ c := h a (by simp)
    have ht := ih fun x hx => h x (by simp [hx])
    simp only [repChar, List.flatMap_cons, if_neg ha, List.singleton_append] at ht ⊢
    rw [ht]

/-- HTML escaping is the identity on text free of `&`, `<`, `>`. -/
theorem escape_html_id (l : Line) (h : ∀ x ∈ l, x ≠ '&' ∧ x ≠ '<' ∧ x ≠ '>') :
    escape_html l = l := by
  rw [escape_html, repChar_id _ _ l fun x hx => (h x hx).1,
    repChar_id _ _ l fun x hx => (h x hx).2.1,
    repChar_id _ _ l fun x hx => (h x hx).2.2]

/-- Code-span extraction is the identity (and stores nothing) on text free
of backticks. -/
theorem ecGo_id (k : Nat) : ∀ l : Line, (∀ x ∈ l, x ≠ '`') → ecGo k none l = (l, []) := by
  intro l
  induction l with
  | nil => intro _; rfl
  | cons a t ih =>
    intro h
    have ha : a ≠ '`' := h a (by simp)
    have ht := ih fun x hx => h x (by simp [hx])
    simp [ecGo, if_neg ha, ht]

/-- The one-character-delimiter pass is the identity on text free of its
delimiter. -/
theorem sb1_id (c : Char) (tO tC : Line) :
    ∀ l : Line, (∀ x ∈ l, x ≠ c) → sb1 c tO tC none l = l := by
  intro l
  induction l with
  | nil => intro _; rfl
  | cons a t ih =>
    intro h
    have ha : a ≠ c := h a (by simp)
    have ht := ih fun x hx => h x (by simp [hx])
    simp [sb1, if_neg ha, ht]

/-- The link pass is the identity on text free of `[`. -/
theorem subLink_id : ∀ l : Line, (∀ x ∈ l, x ≠ '[') → subLink .out l = l := by
  intro l
  induction l with
  | nil => intro _; rfl
  | cons a t ih =>
    intro h
    have ha : a ≠ '[' := h a (by simp)
    have ht := ih fun x hx => h x (by simp [hx])
    have e : subLink .out (a :: t) =
        if a = '[' then subLink (.one []) t else a :: subLink .out t := by
      cases t with
      | nil => rfl
      | cons b t' => rfl
    rw [e, if_neg ha, ht]

/-- No adjacent pair of the character `c` occurs in text free of `c`. -/
theorem chainP_of_no_mem (c : Char) :
    ∀ l : Line, (∀ x ∈ l, x ≠ c) →
      List.Chain' (fun a b => ¬(a = c ∧ b = c)) l := by
  intro l
  induction l with
  | nil => intro _; exact List.chain'_nil
  | cons a t ih =>
    intro h
    rw [List.chain'_cons']
    exact ⟨fun y _ hy => absurd hy.1 (h a (by simp)),
      ih fun x hx => h x (by simp [hx])⟩

/-- Prepending text free of `c` preserves the absence of adjacent `c`
pairs. -/
theorem chainP_append (c : Char) :
    ∀ u l : Line, (∀ x ∈ u, x ≠ c) →
      List.Chain' (fun a b => ¬(a = c ∧ b = c)) l →
      List.Chain' (fun a b => ¬(a = c ∧ b = c)) (u ++ l) := by
  intro u l
  induction u with
  | nil => intro _ hl; simpa using hl
  | cons a t ih =>
    intro h hl
    rw [List.cons_append, List.chain'_cons']
    exact ⟨fun y _ hy => absurd hy.1 (h a (by simp)),
      ih (fun x hx => h x (by simp [hx])) hl⟩

/-- The two-character-delimiter pass is the identity on text with no
adjacent pair of its delimiter character. -/
theorem sb2_chain_id (c : Char) (tO tC : Line) :
    ∀ l : Line, List.Chain' (fun a b => ¬(a = c ∧ b = c)) l →
      sb2 c tO tC none l = l := by
  intro l
  induction l with
  | nil => intro _; rfl
  | cons a t ih =>
    intro h
    cases t with
    | nil => rfl
    | cons b t' =>
      have h1 : ¬(a = c ∧ b = c) := (List.chain'_cons.mp h).1
      have h2 := ih (List.chain'_cons.mp h).2
      simp only [sb2, if_neg h1]
      rw [h2]

/-- While inside a potential underscore span, characters other than `_` are
accumulated into the body. -/
theorem sbU_consume :
    ∀ t : Line, (∀ x ∈ t, x ≠ '_') →
      ∀ (prev : Option Char) (p : Option Char) (acc rest : Line),
        sbU prev (some (p, acc)) (t ++ rest) = sbU prev (some (p, t.reverse ++ acc)) rest := by
  intro t
  induction t with
  | nil => intro _ prev p acc rest; simp
  | cons a t' ih =>
    intro h prev p acc rest
    have ha : a ≠ '_' := h a (by simp)
    have ht := ih fun x hx => h x (by simp [hx])
    rw [List.cons_append]
    show sbU prev (some (p, acc)) (a :: (t' ++ rest)) = _
    simp only [sbU]
    rw [if_neg fun hc => ha hc.1]
    rw [ht prev p (a :: acc) rest]
    simp

/-- An alphanumeric character is none of the formatter's markup
characters. -/
theorem alnum_ne_specials (x : Char) (h : x.isAlphanum = true) :
    x ≠ '&' ∧ x ≠ '<' ∧ x ≠ '>' ∧ x ≠ '`' ∧ x ≠ '*' ∧ x ≠ '_' ∧ x ≠ '[' ∧ x ≠ '~' := by
  refine ⟨?_, ?_, ?_, ?_, ?_, ?_, ?_, ?_⟩ <;> (rintro rfl; exact absurd h (by decide))

/-- The underscore pass on `a_t_b` with `t` free of underscores: the lazy
match `_t_` is found, the guard sees the alphanumeric `a` before the match
and keeps the matched text verbatim. -/
theorem sbU_keeps_alnum_guard (t : Line) (hne : t ≠ []) (h : ∀ x ∈ t, x ≠ '_') :
    sbU none none ('a' :: '_' :: (t ++ '_' :: ['b'])) = 'a' :: '_' :: (t ++ '_' :: ['b']) := by
  have hstep : sbU none none ('a' :: '_' :: (t ++ '_' :: ['b'])) =
      'a' :: sbU (some 'a') (some (some 'a', [])) (t ++ '_' :: ['b']) := by
    simp [sbU]
  rw [hstep, sbU_consume t h (some 'a') (some 'a') [] ('_' :: ['b'])]
  have hacc : ¬ ((t.reverse ++ [] : Line) = []) := by simpa using hne
  simp only [sbU]
  rw [if_pos ⟨trivial, by simpa using hacc⟩]
  simp [alnumO, sbU]

/-- The underscore pass on `⟨space⟩_t_⟨space⟩` with `t` free of underscores:
both neighbours are non-alphanumeric, so the body is wrapped in italics. -/
theorem sbU_wraps_space (t : Line) (hne : t ≠ []) (h : ∀ x ∈ t, x ≠ '_') :
    sbU none none (' ' :: '_' :: (t ++ '_' :: [' '])) =
      ' ' :: (toL "<i>" ++ (t ++ (toL "</i>" ++ [' ']))) := by
  have hstep : sbU none none (' ' :: '_' :: (t ++ '_' :: [' '])) =
      ' ' :: sbU (some ' ') (some (some ' ', [])) (t ++ '_' :: [' ']) := by
    simp [sbU]
  rw [hstep, sbU_consume t h (some ' ') (some ' ') [] ('_' :: [' '])]
  have hacc : ¬ ((t.reverse ++ [] : Line) = []) := by simpa using hne
  simp only [sbU]
  rw [if_pos ⟨trivial, by simpa using hacc⟩]
  simp [alnumO, sbU, toL]

/-- No two underscores are adjacent in `a_t_b` when `t` is non-empty and
free of underscores. -/
theorem chainU_boundary (a b : Char) (ha : a ≠ '_') (hb : b ≠ '_') (t : Line)
    (hne : t ≠ []) (hU : ∀ x ∈ t, x ≠ '_') :
    List.Chain' (fun x y => ¬(x = '_' ∧ y = '_')) (a :: '_' :: (t ++ '_' :: [b])) := by
  cases t with
  | nil => exact absurd rfl hne
  | cons t0 t' =>
    have h0 : t0 ≠ '_' := hU t0 (by simp)
    rw [List.chain'_cons']
    refine ⟨fun y _ hy => absurd hy.1 ha, ?_⟩
    rw [List.chain'_cons']
    refine ⟨fun y hy hc => ?_, ?_⟩
    · simp at hy
      exact absurd hc.2 (hy ▸ h0)
    · refine chainP_append '_' (t0 :: t') _ (fun x hx => hU x hx) ?_
      rw [List.chain'_cons']
      refine ⟨fun y hy hc => ?_, List.chain'_singleton b⟩
      simp at hy
      exact absurd hc.2 (hy ▸ hb)

/-- Members of the shape `a_t_b`. -/
theorem mem_underscore_shape (a b : Char) (t : Line) :
    ∀ x ∈ (a :: '_' :: (t ++ '_' :: [b]) : Line), x = a ∨ x = '_' ∨ x = b ∨ x ∈ t := by
  intro x hx
  simp at hx
  tauto

/-- The whole formatter leaves `a_t_b` unchanged for alphanumeric `t`: the
underscore match is found but its left neighbour is alphanumeric, and no
other pass fires. -/
theorem pipeline_keeps_alnum_guarded (t : Line) (hne : t ≠ [])
    (h : ∀ x ∈ t, x.isAlphanum = true) :
    process_inline_formatting ('a' :: '_' :: (t ++ '_' :: ['b'])) =
      'a' :: '_' :: (t ++ '_' :: ['b']) := by
  have hs := fun x hx => alnum_ne_specials x (h x hx)
  have hU : ∀ x ∈ t, x ≠ '_' := fun x hx => (hs x hx).2.2.2.2.2.1
  have hmem := mem_underscore_shape 'a' 'b' t
  have e1 : escape_html ('a' :: '_' :: (t ++ '_' :: ['b'])) =
      'a' :: '_' :: (t ++ '_' :: ['b']) := by
    refine escape_html_id _ fun x hx => ?_
    rcases hmem x hx with rfl | rfl | rfl | hx'
    · exact ⟨by decide, by decide, by decide⟩
    · exact ⟨by decide, by decide, by decide⟩
    · exact ⟨by decide, by decide, by decide⟩
    · exact ⟨(hs x hx').1, (hs x hx').2.1, (hs x hx').2.2.1⟩
  have e2 : ecGo 0 none ('a' :: '_' :: (t ++ '_' :: ['b'])) =
      ('a' :: '_' :: (t ++ '_' :: ['b']), []) := by
    refine ecGo_id 0 _ fun x hx => ?_
    rcases hmem x hx with rfl | rfl | rfl | hx'
    · decide
    · decide
    · decide
    · exact (hs x hx').2.2.2.1
  have noStar : ∀ x ∈ ('a' :: '_' :: (t ++ '_' :: ['b']) : Line), x ≠ '*' := by
    intro x hx
    rcases hmem x hx with rfl | rfl | rfl | hx'
    · decide
    · decide
    · decide
    · exact (hs x hx').2.2.2.2.1
  have e3 := sb2_chain_id '*' (toL "<b>") (toL "</b>") _ (chainP_of_no_mem '*' _ noStar)
  have e4 := sb2_chain_id '_' (toL "<b>") (toL "</b>") _
    (chainU_boundary 'a' 'b' (by decide) (by decide) t hne hU)
  have e5 := sb1_id '*' (toL "<i>") (toL "</i>") _ noStar
  have e6 := sbU_keeps_alnum_guard t hne hU
  have noBr : ∀ x ∈ ('a' :: '_' :: (t ++ '_' :: ['b']) : Line), x ≠ '[' := by
    intro x hx
    rcases hmem x hx with rfl | rfl | rfl | hx'
    · decide
    · decide
    · decide
    · exact (hs x hx').2.2.2.2.2.2.1
  have e7 := subLink_id _ noBr
  have noTil : ∀ x ∈ ('a' :: '_' :: (t ++ '_' :: ['b']) : Line), x ≠ '~' := by
    intro x hx
    rcases hmem x hx with rfl | rfl | rfl | hx'
    · decide
    · decide
    · decide
    · exact (hs x hx').2.2.2.2.2.2.2
  have e8 := sb2_chain_id '~' (toL "<strike>") (toL "</strike>") _
    (chainP_of_no_mem '~' _ noTil)
  simp only [process_inline_formatting, e1, e2, e3, e4, e5, e6, e7, e8, restoreGo]

/-- The whole formatter italicises `_t_` between spaces for alphanumeric
`t`: only the underscore pass fires, and both neighbours being
non-alphanumeric the guard wraps the body. -/
theorem pipeline_wraps_nonalnum (t : Line) (hne : t ≠ [])
    (h : ∀ x ∈ t, x.isAlphanum = true) :
    process_inline_formatting (' ' :: '_' :: (t ++ '_' :: [' '])) =
      ' ' :: (toL "<i>" ++ (t ++ (toL "</i>" ++ [' ']))) := by
  have hs := fun x hx => alnum_ne_specials x (h x hx)
  have hU : ∀ x ∈ t, x ≠ '_' := fun x hx => (hs x hx).2.2.2.2.2.1
  have hmem := mem_underscore_shape ' ' ' ' t
  have hmem2 : ∀ x ∈ (' ' :: (toL "<i>" ++ (t ++ (toL "</i>" ++ [' ']))) : Line),
      x = ' ' ∨ x = '<' ∨ x = 'i' ∨ x = '>' ∨ x = '/' ∨ x ∈ t := by
    intro x hx
    have tl1 : toL "<i>" = ['<', 'i', '>'] := rfl
    have tl2 : toL "</i>" = ['<', '/', 'i', '>'] := rfl
    rw [tl1, tl2] at hx
    simp at hx
    tauto
  have e1 : escape_html (' ' :: '_' :: (t ++ '_' :: [' '])) =
      ' ' :: '_' :: (t ++ '_' :: [' ']) := by
    refine escape_html_id _ fun x hx => ?_
    rcases hmem x hx with rfl | rfl | rfl | hx'
    · exact ⟨by decide, by decide, by decide⟩
    · exact ⟨by decide, by decide, by decide⟩
    · exact ⟨by decide, by decide, by decide⟩
    · exact ⟨(hs x hx').1, (hs x hx').2.1, (hs x hx').2.2.1⟩
  have e2 : ecGo 0 none (' ' :: '_' :: (t ++ '_' :: [' '])) =
      (' ' :: '_' :: (t ++ '_' :: [' ']), []) := by
    refine ecGo_id 0 _ fun x hx => ?_
    rcases hmem x hx with rfl | rfl | rfl | hx'
    · decide
    · decide
    · decide
    · exact (hs x hx').2.2.2.1
  have noStar : ∀ x ∈ (' ' :: '_' :: (t ++ '_' :: [' ']) : Line), x ≠ '*' := by
    intro x hx
    rcases hmem x hx with rfl | rfl | rfl | hx'
    · decide
    · decide
    · decide
    · exact (hs x hx').2.2.2.2.1
  have e3 := sb2_chain_id '*' (toL "<b>") (toL "</b>") _ (chainP_of_no_mem '*' _ noStar)
  have e4 := sb2_chain_id '_' (toL "<b>") (toL "</b>") _
    (chainU_boundary ' ' ' ' (by decide) (by decide) t hne hU)
  have e5 := sb1_id '*' (toL "<i>") (toL "</i>") _ noStar
  have e6 := sbU_wraps_space t hne hU
  have noBr : ∀ x ∈ (' ' :: (toL "<i>" ++ (t ++ (toL "</i>" ++ [' ']))) : Line), x ≠ '[' := by
    intro x hx
    rcases hmem2 x hx with rfl | rfl | rfl | rfl | rfl | hx'
    · decide
    · decide
    · decide
    · decide
    · decide
    · exact (hs x hx').2.2.2.2.2.2.1
  have e7 := subLink_id _ noBr
  have noTil : ∀ x ∈ (' ' :: (toL "<i>" ++ (t ++ (toL "</i>" ++ [' ']))) : Line), x ≠ '~' := by
    intro x hx
    rcases hmem2 x hx with rfl | rfl | rfl | rfl | rfl | hx'
    · decide
    · decide
    · decide
    · decide
    · decide
    · exact (hs x hx').2.2.2.2.2.2.2
  have e8 := sb2_chain_id '~' (toL "<strike>") (toL "</strike>") _
    (chainP_of_no_mem '~' _ noTil)
  simp only [process_inline_formatting, e1, e2, e3, e4, e5, e6, e7, e8, restoreGo]

/-- C7: in the underscore-italic step the matched text `_text_` is kept
verbatim when the character before the match start or after the match end is
alphanumeric and is wrapped in italic otherwise: for every non-empty
alphanumeric `t`, `a_t_b` passes through the formatter unchanged while
`_t_` between spaces becomes italic; in particular `snake_case_identifier`
and `https://x.com/path_with_underscores` are returned unchanged. -/
theorem underscore_italic_guard (t : Line) (hne : t ≠ [])
    (h : ∀ x ∈ t, x.isAlphanum = true) :
    process_inline_formatting ('a' :: '_' :: (t ++ '_' :: ['b'])) =
        'a' :: '_' :: (t ++ '_' :: ['b'])
    ∧ process_inline_formatting (' ' :: '_' :: (t ++ '_' :: [' '])) =
        ' ' :: (toL "<i>" ++ (t ++ (toL "</i>" ++ [' '])))
    ∧ process_inline_formatting (toL "snake_case_identifier") = toL "snake_case_identifier"
    ∧ process_inline_formatting (toL "https://x.com/path_with_underscores") =
        toL "https://x.com/path_with_underscores" :=
  ⟨pipeline_keeps_alnum_guarded t hne h, pipeline_wraps_nonalnum t hne h,
    by decide, by decide⟩

/-- C7, witness: the theorem at the concrete body `under`. -/
theorem underscore_italic_guard_witness :
    process_inline_formatting ('a' :: '_' :: (toL "under" ++ '_' :: ['b'])) =
        'a' :: '_' :: (toL "under" ++ '_' :: ['b'])
    ∧ process_inline_formatting (' ' :: '_' :: (toL "under" ++ '_' :: [' '])) =
        ' ' :: (toL "<i>" ++ (toL "under" ++ (toL "</i>" ++ [' '])))
    ∧ process_inline_formatting (toL "snake_case_identifier") = toL "snake_case_identifier"
    ∧ process_inline_formatting (toL "https://x.com/path_with_underscores") =
        toL "https://x.com/path_with_underscores" :=
  underscore_italic_guard (toL "under") (by decide) (by decide)

/-- Dropping from the left stops at a final element that fails the
predicate. -/
theorem dropWhile_append_singleton (p : Char → Bool) (c : Char) (hc : p c = false) :
    ∀ u : Line, (u ++ [c]).dropWhile p = u.dropWhile p ++ [c] := by
  intro u
  induction u with
  | nil => simp [List.dropWhile, hc]
  | cons a u' ih =>
    by_cases hpa : p a
    · simp [List.dropWhile, hpa, ih]
    · simp [List.dropWhile, hpa]

/-- Stripping a line whose first character is not whitespace keeps that
character and strips only from the right. -/
theorem pyStrip_cons (c : Char) (l : Line) (hc : isPySpace c = false) :
    pyStrip (c :: l) = c :: (l.reverse.dropWhile isPySpace).reverse := by
  rw [pyStrip, dropTrailWS]
  rw [show (c :: l).dropWhile isPySpace = c :: l by simp [List.dropWhile, hc]]
  rw [List.reverse_cons, dropWhile_append_singleton isPySpace c hc]
  simp

/-- A newline-free line splits into itself alone. -/
theorem splitNL_no_nl : ∀ l : Line, (∀ x ∈ l, x ≠ '\n') → splitNL l = [l] := by
  intro l
  induction l with
  | nil => intro _; rfl
  | cons a t ih =>
    intro h
    have ha : a ≠ '\n' := h a (by simp)
    simp [splitNL, ha, ih fun x hx => h x (by simp [hx])]

/-- Splitting at the first newline after a newline-free prefix. -/
theorem splitNL_append_nl : ∀ (l : Line), (∀ x ∈ l, x ≠ '\n') →
    ∀ r : Line, splitNL (l ++ '\n' :: r) = l :: splitNL r := by
  intro l
  induction l with
  | nil => intro _ r; simp [splitNL]
  | cons a t ih =>
    intro h r
    have ha : a ≠ '\n' := h a (by simp)
    simp [splitNL, ha, ih (fun x hx => h x (by simp [hx])) r]

/-- Unfolding of the join on a list of two or more pieces. -/
theorem intercalate_cons₂ (sep a b : Line) (rest : List Line) :
    List.intercalate sep (a :: b :: rest) = a ++ sep ++ List.intercalate sep (b :: rest) := by
  simp [List.intercalate, List.intersperse]

/-- Joining newline-free lines with newlines and splitting again is the
identity. -/
theorem splitNL_intercalate : ∀ ls : List Line, ls ≠ [] →
    (∀ l ∈ ls, ∀ x ∈ l, x ≠ '\n') →
    splitNL (List.intercalate ['\n'] ls) = ls := by
  intro ls
  induction ls with
  | nil => intro hne _; exact absurd rfl hne
  | cons l rest ih =>
    intro _ h
    cases rest with
    | nil =>
      rw [show List.intercalate ['\n'] [l] = l by simp [List.intercalate]]
      exact splitNL_no_nl l (h l (by simp))
    | cons l2 rest' =>
      rw [intercalate_cons₂]
      rw [show l ++ ['\n'] ++ List.intercalate ['\n'] (l2 :: rest') =
        l ++ '\n' :: List.intercalate ['\n'] (l2 :: rest') by simp]
      rw [splitNL_append_nl l (h l (by simp)) _]
      rw [ih (by simp) fun x hx => h x (by simp [hx])]

/-- On a line of the shape `> t` none of the earlier scanner branches fires
and the blockquote lookahead is entered with the captured text `t`. -/
theorem dispatch_bq (t : Line) (hd : t.dropWhile isPySpace = t) :
    dispatch ('>' :: ' ' :: t) none = ([], .inBq [t], none) := by
  have hfence : isFence ('>' :: ' ' :: t) = false := by
    rw [isFence, pyStrip_cons '>' _ (by decide)]
    simp [toL, List.isPrefixOf]
  have hhead : headingMatch ('>' :: ' ' :: t) = none := by
    simp [headingMatch, List.takeWhile]
  have hrule : ruleMatch ('>' :: ' ' :: t) = false := by
    rw [ruleMatch, ruleCheck, pyStrip_cons '>' _ (by decide)]
    simp
  have hul : ulistMatch ('>' :: ' ' :: t) = none := by
    rw [ulistMatch]
    rw [show ('>' :: ' ' :: t).dropWhile isPySpace = '>' :: ' ' :: t by
      simp [List.dropWhile, (by decide : isPySpace '>' = false)]]
    simp
  have hol : olistMatch ('>' :: ' ' :: t) = none := by
    rw [olistMatch]
    rw [show ('>' :: ' ' :: t).dropWhile isPySpace = '>' :: ' ' :: t by
      simp [List.dropWhile, (by decide : isPySpace '>' = false)]]
    simp [List.takeWhile]
  have hcap : bqCapture ('>' :: ' ' :: t) = t := by
    simp [bqCapture, List.dropWhile, (by decide : isPySpace ' ' = true), hd]
  rw [dispatch, hhead, hul, hol]
  simp [hfence, hrule, bqStart, hcap, flushL]

/-- While in the blockquote lookahead, a run of `> t` lines is consumed
greedily, appending each capture, and at its end one blockquote paragraph is
emitted whose text joins all captures with single spaces. -/
theorem scan_inBq (ts : List Line) : ∀ caps : List Line,
    (∀ t ∈ ts, t.dropWhile isPySpace = t) →
    scan (ts.map fun t => '>' :: ' ' :: t) (.inBq caps) none =
      [.para .customBlockquote
        (process_inline_formatting (List.intercalate [' '] (caps ++ ts)))] := by
  induction ts with
  | nil => intro caps _; simp [scan, flushL]
  | cons t ts' ih =>
    intro caps h
    have hcap : bqCapture ('>' :: ' ' :: t) = t := by
      simp [bqCapture, List.dropWhile, (by decide : isPySpace ' ' = true), h t (by simp)]
    simp only [List.map_cons, scan, bqStart, if_pos, hcap]
    rw [ih (caps ++ [t]) fun x hx => h x (by simp [hx])]
    simp

/-- C8: a run of blockquote lines is consumed greedily into one Blockquote
block whose text joins the captured texts with single spaces (line breaks
are not preserved), inline-formatted once; stated for every non-empty list
of newline-free captured texts `ts`, rendered as the lines `> t`. -/
theorem blockquote_merge (ts : List Line) (hne : ts ≠ [])
    (h : ∀ t ∈ ts, (∀ x ∈ t, x ≠ '\n') ∧ t.dropWhile isPySpace = t) :
    markdownToStory (List.intercalate ['\n'] (ts.map fun t => '>' :: ' ' :: t)) =
      [.para .customBlockquote
        (process_inline_formatting (List.intercalate [' '] ts))] := by
  rw [markdownToStory]
  rw [splitNL_intercalate (ts.map fun t => '>' :: ' ' :: t)
    (by simpa using hne)
    (by
      intro l hl x hx
      simp only [List.mem_map] at hl
      obtain ⟨t, ht, rfl⟩ := hl
      simp only [List.mem_cons] at hx
      rcases hx with rfl | rfl | hx'
      · decide
      · decide
      · exact (h t ht).1 x hx')]
  cases ts with
  | nil => exact absurd rfl hne
  | cons t0 ts' =>
    simp only [List.map_cons, scan]
    rw [dispatch_bq t0 (h t0 (by simp)).2]
    simp only [List.nil_append]
    rw [scan_inBq ts' [t0] fun x hx => (h x (by simp [hx])).2]
    simp

/-- C8, witness: the theorem at the two captures `a` and `b` — the input
`> a\n> b` yields one blockquote block with text `a b`. -/
theorem blockquote_merge_witness :
    markdownToStory (List.intercalate ['\n'] (([toL "a", toL "b"]).map fun t => '>' :: ' ' :: t)) =
      [.para .customBlockquote
        (process_inline_formatting (List.intercalate [' '] [toL "a", toL "b"]))] :=
  blockquote_merge [toL "a", toL "b"] (by decide) (by decide)

/-- The first element surviving `dropWhile` fails the predicate. -/
theorem head?_dropWhile_false (p : Char → Bool) :
    ∀ u : Line, ∀ a, (u.dropWhile p).head? = some a → p a = false := by
  intro u
  induction u with
  | nil => intro a ha; simp at ha
  | cons x u' ih =>
    intro a ha
    rw [List.dropWhile_cons] at ha
    by_cases hx : p x
    · rw [if_pos hx] at ha
      exact ih a ha
    · rw [if_neg hx] at ha
      simp only [List.head?_cons, Option.some.injEq] at ha
      subst ha
      cases hpx : p x with
      | true => exact absurd hpx hx
      | false => rfl

/-- A line equal to its own strip has no leading whitespace. -/
theorem trimmed_no_lead (l : Line) (h : pyStrip l = l) :
    l.dropWhile isPySpace = l := by
  have hsuf := List.dropWhile_suffix (l := l) isPySpace
  refine hsuf.eq_of_length ?_
  have h1 : (pyStrip l).length ≤ (l.dropWhile isPySpace).length := by
    rw [pyStrip, dropTrailWS]
    simpa using (List.dropWhile_suffix (l := (l.dropWhile isPySpace).reverse) isPySpace).length_le
  have h2 : (l.dropWhile isPySpace).length ≤ l.length := hsuf.length_le
  rw [h] at h1
  omega

/-- A line equal to its own strip does not end in whitespace. -/
theorem trimmed_no_trail (l : Line) (h : pyStrip l = l) :
    ∀ w, l.reverse.head? = some w → isPySpace w = false := by
  have hlead := trimmed_no_lead l h
  have h2 : dropTrailWS l = l := by
    rw [pyStrip, hlead] at h
    exact h
  have h3 : l.reverse.dropWhile isPySpace = l.reverse := by
    have := congrArg List.reverse h2
    simpa [dropTrailWS] using this
  intro w hw
  rw [← h3] at hw
  exact head?_dropWhile_false isPySpace _ w hw

/-- The last character of a non-empty suffix obtained by `drop` is the last
character of the whole line. -/
theorem lastChar_of_drop (l : Line) (n : Nat) (w : Char)
    (hw : ((l.drop n).reverse).head? = some w) : l.reverse.head? = some w := by
  rw [show l.reverse = (l.drop n).reverse ++ (l.take n).reverse by
    rw [← List.reverse_append, List.take_append_drop]]
  rw [List.head?_append, hw]
  rfl

/-- On a tail that cannot consist of whitespace alone (the line does not end
in whitespace), the scanner's `\s+(.+)$` tail match succeeds exactly when
the lookahead's `\s+` prefix test does: the first character is whitespace. -/
theorem wsTextTail_isSome (r : Line)
    (hr : ∀ w, r.reverse.head? = some w → isPySpace w = false) :
    (wsTextTail r).isSome = wsHead r := by
  cases r with
  | nil => rfl
  | cons c r' =>
    show (wsTextTail (c :: r')).isSome = isPySpace c
    by_cases hc : isPySpace c
    · have hw : (c :: r').takeWhile isPySpace = c :: r'.takeWhile isPySpace := by
        rw [List.takeWhile_cons, if_pos hc]
      have hd : (c :: r').dropWhile isPySpace = r'.dropWhile isPySpace := by
        rw [List.dropWhile_cons, if_pos hc]
      by_cases ht : (r'.dropWhile isPySpace).isEmpty
      · have hall : ∀ x ∈ r', isPySpace x = true :=
          List.dropWhile_eq_nil_iff.mp (by simpa using ht)
        cases r' with
        | nil =>
          exact absurd (hr c (by simp)) (by simpa using hc)
        | cons x r'' =>
          have hself : (x :: r'').takeWhile isPySpace = x :: r'' :=
            List.takeWhile_eq_self_iff.mpr hall
          simp [wsTextTail, hw, hd, ht, hself, hc]
      · simp [wsTextTail, hw, hd, ht, hc]
    · have hw : (c :: r').takeWhile isPySpace = [] := by
        rw [List.takeWhile_cons, if_neg hc]
      simp [wsTextTail, hw, hc, (by simpa using hc : isPySpace c = false)]

/-- On a line that does not end in whitespace, the scanner's heading rule
fires exactly when the lookahead's heading pattern matches. -/
theorem heading_component (l : Line)
    (htr : ∀ w, l.reverse.head? = some w → isPySpace w = false) :
    (headingMatch l).isSome = headPat l := by
  simp only [headPat]
  have hK := wsTextTail_isSome (l.drop (l.takeWhile (· = '#')).length)
    fun w hw => htr w (lastChar_of_drop l _ w hw)
  by_cases hn : 1 ≤ (l.takeWhile (· = '#')).length ∧ (l.takeWhile (· = '#')).length ≤ 6
  · simp only [headingMatch, if_pos hn]
    rcases ho : wsTextTail (l.drop (l.takeWhile (· = '#')).length) with _ | t
    · rw [ho] at hK
      simpa [hn.1, hn.2] using hK
    · rw [ho] at hK
      simpa [hn.1, hn.2] using hK
  · simp only [headingMatch, if_neg hn, Option.isSome_none]
    rcases not_and_or.mp hn with h1 | h1
    · simp [h1]
    · simp [h1]

/-- On a trimmed line, the scanner's unordered-item rule fires exactly when
the lookahead's pattern matches. -/
theorem ulist_component (l : Line) (hlead : l.dropWhile isPySpace = l)
    (htr : ∀ w, l.reverse.head? = some w → isPySpace w = false) :
    (ulistMatch l).isSome = ulistPat l := by
  simp only [ulistPat]
  rw [ulistMatch, hlead]
  cases l with
  | nil => rfl
  | cons c r =>
    show (if c = '-' || c = '*' || c = '+' then wsTextTail r else none).isSome = _
    by_cases hb : (c = '-' || c = '*' || c = '+' : Bool)
    · rw [if_pos hb]
      have hK := wsTextTail_isSome r fun w hw => htr w (lastChar_of_drop (c :: r) 1 w hw)
      rw [hK]
      simp [hb]
    · rw [if_neg hb]
      simp only [Option.isSome_none]
      simp only [Bool.not_eq_true] at hb
      simp [hb]

/-- On a trimmed line, the scanner's ordered-item rule fires exactly when
the lookahead's pattern matches. -/
theorem olist_component (l : Line) (hlead : l.dropWhile isPySpace = l)
    (htr : ∀ w, l.reverse.head? = some w → isPySpace w = false) :
    (olistMatch l).isSome = olistPat l := by
  simp only [olistPat]
  rw [olistMatch, hlead]
  by_cases hd : (l.takeWhile Char.isDigit).isEmpty
  · simp [hd]
  · rw [if_neg hd]
    rcases hm : l.drop (l.takeWhile Char.isDigit).length with _ | ⟨x, r'⟩
    · simp [hd]
    · by_cases hx : x = '.'
      · subst hx
        have hr' : l.drop ((l.takeWhile Char.isDigit).length + 1) = r' := by
          rw [← List.drop_drop, hm]
          rfl
        have hK := wsTextTail_isSome r'
          fun w hw => htr w (lastChar_of_drop l _ w (by rw [hr']; exact hw))
        simp only [if_pos rfl, hK]
        simp [hd]
        exact hK
      · simp [hx, hd]

/-- The lookahead's table test on a line implies the scanner's substring
test, so the two table rules coincide. -/
theorem table_component (l : Line) :
    (l.contains '|' && decide (l.head? = some '|')) = decide (l.head? = some '|') := by
  cases l with
  | nil => simp
  | cons c r =>
    by_cases hc : c = '|'
    · subst hc
      simp [List.contains_cons]
    · simp [hc]

/-- C4, counterexample: on the indented line `  # h`, `is_special_line`
strips before matching and answers true, while the scanner's own rules
(which match the heading pattern against the raw line) all fail and the
scanner renders the line as a body paragraph. -/
theorem is_special_disagrees_cex :
    is_special_line (toL "  # h") = true ∧
      scannerSpecial (toL "  # h") = false ∧
      markdown_to_reportlab "  # h" = [.para .customBody (toL "  # h")] := by
  refine ⟨by decide, by decide, by decide⟩

/-- C4 (amended): `is_special_line` applies rules 1–7 to the stripped line,
so it agrees with the scanner's own classification exactly on lines equal to
their own strip; on a line with leading whitespace the two can disagree. -/
theorem is_special_agrees_on_trimmed (l : Line) (h : pyStrip l = l) :
    is_special_line l = scannerSpecial l := by
  have hlead := trimmed_no_lead l h
  have htr := trimmed_no_trail l h
  have e1 := heading_component l htr
  have e2 := ulist_component l hlead htr
  have e3 := olist_component l hlead htr
  have e4 := table_component l
  simp only [is_special_line, scannerSpecial, isFence, ruleMatch, isTableLine, bqStart, h]
  rw [← e1, ← e2, ← e3, e4]
  rw [Bool.eq_iff_iff]
  simp only [Bool.or_eq_true]
  tauto

/-- C4, witness: the amended theorem at the trimmed line `# h`. -/
theorem is_special_agrees_on_trimmed_witness :
    is_special_line (toL "# h") = scannerSpecial (toL "# h") :=
  is_special_agrees_on_trimmed (toL "# h") (by decide)

/-- A list is a prefix of itself followed by anything. -/
theorem isPrefixOf_append_self : ∀ u v : Line, (u.isPrefixOf (u ++ v)) = true := by
  intro u v
  induction u with
  | nil => simp [List.isPrefixOf]
  | cons c u' ih => simp [List.isPrefixOf, ih]

/-- A prefix test fails when the heads differ. -/
theorem isPrefixOf_head_ne {c d : Char} (h : d ≠ c) (x cs : Line) :
    ((d :: x).isPrefixOf (c :: cs)) = false := by
  simp only [List.isPrefixOf, Bool.and_eq_false_iff]
  exact Or.inl (by simp [h])

/-- The skip counter consumes exactly the matched characters. -/
theorem pyRepGo_consume (old new : Line) :
    ∀ u : Line, pyRepGo old new u.length u = [] := by
  intro u
  induction u with
  | nil => rfl
  | cons c u' ih => simp [pyRepGo, ih]

/-- Replacing inside the pattern itself yields the replacement alone. -/
theorem pyRepGo_self (old new : Line) (h : old ≠ []) :
    pyRepGo old new 0 old = new := by
  cases old with
  | nil => exact absurd rfl h
  | cons c cs =>
    simp only [pyRepGo]
    rw [if_pos (by
      have := isPrefixOf_append_self (c :: cs) []
      rw [List.append_nil] at this
      exact this)]
    simp [pyRepGo_consume]

/-- While inside a potential code span, non-backtick characters are
accumulated into the content. -/
theorem ecGo_consume :
    ∀ t : Line, (∀ x ∈ t, x ≠ '`') →
      ∀ (k : Nat) (acc rest : Line),
        ecGo k (some acc) (t ++ rest) = ecGo k (some (t.reverse ++ acc)) rest := by
  intro t
  induction t with
  | nil => intro _ k acc rest; simp
  | cons a t' ih =>
    intro h k acc rest
    have ha : a ≠ '`' := h a (by simp)
    have ht := ih fun x hx => h x (by simp [hx])
    rw [List.cons_append]
    show ecGo k (some acc) (a :: (t' ++ rest)) = _
    rw [show ecGo k (some acc) (a :: (t' ++ rest)) =
      ecGo k (some (a :: acc)) (t' ++ rest) by simp [ecGo, ha]]
    rw [ht k (a :: acc) rest]
    simp

/-- A single backtick span over inert content extracts to the first
placeholder and stores the content. -/
theorem ecGo_single_span (code : Line) (hne : code ≠ [])
    (h : ∀ x ∈ code, x ≠ '`') :
    ecGo 0 none ('`' :: (code ++ ['`'])) = (placeholder 0, [code]) := by
  rw [show ecGo 0 none ('`' :: (code ++ ['`'])) = ecGo 0 (some []) (code ++ ['`']) by
    simp [ecGo]]
  rw [ecGo_consume code h 0 [] ['`']]
  have hacc : (code.reverse ++ [] : Line).isEmpty = false := by
    simp [List.isEmpty_iff, hne]
  simp [ecGo, hacc]
  exact hne

/-- The skip counter of the run interpreter consumes exactly the recognised
tag's characters. -/
theorem runsGo_skip (b i s k : Bool) (acc : Line) :
    ∀ u rest : Line, runsGo b i s k acc u.length (u ++ rest) = runsGo b i s k acc 0 rest := by
  intro u
  induction u with
  | nil => intro rest; rfl
  | cons c u' ih =>
    intro rest
    simp only [List.length_cons, List.cons_append, runsGo]
    exact ih rest

/-- Characters that cannot start a tag are accumulated literally by the run
interpreter. -/
theorem runsGo_literal :
    ∀ t : Line, (∀ x ∈ t, x ≠ '<') →
      ∀ (b i s k : Bool) (acc rest : Line),
        runsGo b i s k acc 0 (t ++ rest) = runsGo b i s k (t.reverse ++ acc) 0 rest := by
  intro t
  induction t with
  | nil => intro _ b i s k acc rest; simp
  | cons c t' ih =>
    intro h b i s k acc rest
    have hc : ('<' : Char) ≠ c := Ne.symm (h c (by simp))
    have ht := ih fun x hx => h x (by simp [hx])
    rw [List.cons_append]
    have hstep : runsGo b i s k acc 0 (c :: (t' ++ rest)) =
        runsGo b i s k (c :: acc) 0 (t' ++ rest) := by
      have e1 : toL "<b>" = '<' :: toL "b>" := rfl
      have e2 : toL "</b>" = '<' :: toL "/b>" := rfl
      have e3 : toL "<i>" = '<' :: toL "i>" := rfl
      have e4 : toL "</i>" = '<' :: toL "/i>" := rfl
      have e5 : toL "<strike>" = '<' :: toL "strike>" := rfl
      have e6 : toL "</strike>" = '<' :: toL "/strike>" := rfl
      have e7 : toL "<font name=\"Courier\" backColor=\"#f6f8fa\">" =
        '<' :: toL "font name=\"Courier\" backColor=\"#f6f8fa\">" := rfl
      have e8 : toL "</font>" = '<' :: toL "/font>" := rfl
      simp only [runsGo, e1, e2, e3, e4, e5, e6, e7, e8,
        isPrefixOf_head_ne hc, Bool.false_eq_true, if_false]
    rw [hstep, ht b i s k (c :: acc) rest]
    simp

/-- The run interpreter reads a font-wrapped code text, free of `<`, as one
code run carrying no other style. -/
theorem code_span_run (code : Line) (hne : code ≠ []) (h : ∀ x ∈ code, x ≠ '<') :
    runsOf (toL "<font name=\"Courier\" backColor=\"#f6f8fa\">" ++ code ++ toL "</font>") =
      [⟨false, false, false, true, code⟩] := by
  rw [List.append_assoc]
  rw [show toL "<font name=\"Courier\" backColor=\"#f6f8fa\">" ++ (code ++ toL "</font>") =
    '<' :: (toL "font name=\"Courier\" backColor=\"#f6f8fa\">" ++ (code ++ toL "</font>"))
    from rfl]
  simp only [runsOf]
  rw [runsGo]
  have c1 : ((toL "<b>").isPrefixOf
      ('<' :: (toL "font name=\"Courier\" backColor=\"#f6f8fa\">" ++ (code ++ toL "</font>"))))
      = false := rfl
  have c2 : ((toL "</b>").isPrefixOf
      ('<' :: (toL "font name=\"Courier\" backColor=\"#f6f8fa\">" ++ (code ++ toL "</font>"))))
      = false := rfl
  have c3 : ((toL "<i>").isPrefixOf
      ('<' :: (toL "font name=\"Courier\" backColor=\"#f6f8fa\">" ++ (code ++ toL "</font>"))))
      = false := rfl
  have c4 : ((toL "</i>").isPrefixOf
      ('<' :: (toL "font name=\"Courier\" backColor=\"#f6f8fa\">" ++ (code ++ toL "</font>"))))
      = false := rfl
  have c5 : ((toL "<strike>").isPrefixOf
      ('<' :: (toL "font name=\"Courier\" backColor=\"#f6f8fa\">" ++ (code ++ toL "</font>"))))
      = false := rfl
  have c6 : ((toL "</strike>").isPrefixOf
      ('<' :: (toL "font name=\"Courier\" backColor=\"#f6f8fa\">" ++ (code ++ toL "</font>"))))
      = false := rfl
  have c7 : ((toL "<font name=\"Courier\" backColor=\"#f6f8fa\">").isPrefixOf
      ('<' :: (toL "font name=\"Courier\" backColor=\"#f6f8fa\">" ++ (code ++ toL "</font>"))))
      = true := by
    rw [show ('<' :: (toL "font name=\"Courier\" backColor=\"#f6f8fa\">" ++
        (code ++ toL "</font>"))) =
      toL "<font name=\"Courier\" backColor=\"#f6f8fa\">" ++ (code ++ toL "</font>") from rfl]
    exact isPrefixOf_append_self _ _
  rw [c1, c2, c3, c4, c5, c6, c7]
  simp only [Bool.false_eq_true, if_false, if_true]
  rw [show runsFlush false false false false []
      (runsGo false false false true [] 40
        (toL "font name=\"Courier\" backColor=\"#f6f8fa\">" ++ (code ++ toL "</font>"))) =
    runsGo false false false true [] 40
      (toL "font name=\"Courier\" backColor=\"#f6f8fa\">" ++ (code ++ toL "</font>")) from rfl]
  rw [show runsGo false false false true [] 40
      (toL "font name=\"Courier\" backColor=\"#f6f8fa\">" ++ (code ++ toL "</font>")) =
    runsGo false false false true [] 0 (code ++ toL "</font>") from rfl]
  rw [runsGo_literal code h false false false true [] (toL "</font>")]
  rw [show runsGo false false false true (code.reverse ++ []) 0 (toL "</font>") =
    runsFlush false false false true (code.reverse ++ []) [] from rfl]
  have hacc : (code.reverse ++ [] : Line).isEmpty = false := by
    simpa [List.isEmpty_iff] using hne
  simp [runsFlush, hacc]
  exact hne

/-- A backtick span over content free of `&`, `<`, `>` and backticks comes
out of the whole formatter as exactly the font-wrapped stored content: the
bold/italic/strike/link passes traverse only the opaque placeholder and the
restore step substitutes the content verbatim. -/
theorem code_span_restored (code : Line) (hne : code ≠ [])
    (h : ∀ x ∈ code, x ≠ '&' ∧ x ≠ '<' ∧ x ≠ '>' ∧ x ≠ '`') :
    process_inline_formatting ('`' :: (code ++ ['`'])) =
      toL "<font name=\"Courier\" backColor=\"#f6f8fa\">" ++ code ++ toL "</font>" := by
  have e1 : escape_html ('`' :: (code ++ ['`'])) = '`' :: (code ++ ['`']) := by
    refine escape_html_id _ fun x hx => ?_
    simp at hx
    rcases hx with rfl | hx' | rfl
    · exact ⟨by decide, by decide, by decide⟩
    · exact ⟨(h x hx').1, (h x hx').2.1, (h x hx').2.2.1⟩
    · exact ⟨by decide, by decide, by decide⟩
  have e2 := ecGo_single_span code hne fun x hx => (h x hx).2.2.2
  have emid : sb2 '~' (toL "<strike>") (toL "</strike>") none
      (subLink .out (sbU none none (sb1 '*' (toL "<i>") (toL "</i>") none
        (sb2 '_' (toL "<b>") (toL "</b>") none
          (sb2 '*' (toL "<b>") (toL "</b>") none (placeholder 0)))))) = placeholder 0 := rfl
  simp only [process_inline_formatting, e1, e2]
  rw [emid]
  rw [show restoreGo 0 [code] (placeholder 0) =
    pyRepGo (placeholder 0)
      (toL "<font name=\"Courier\" backColor=\"#f6f8fa\">" ++ code ++ toL "</font>") 0
      (placeholder 0) from rfl]
  rw [pyRepGo_self (placeholder 0) _ (by decide)]

/-- C2 (amended): a run restored from a backtick code span carries
`code = true` and exactly the stored content — for every code span over
content free of the markup characters, the whole formatter emits exactly
one code run holding that content with no other styling — but when the
placeholder sat inside a matched bold span, as in `**a `b` c**`, the
restored code run inherits the enclosing style: code is not exclusive of
the other styles. -/
theorem code_span_styles :
    (∀ code : Line, code ≠ [] →
      (∀ x ∈ code, x ≠ '&' ∧ x ≠ '<' ∧ x ≠ '>' ∧ x ≠ '`') →
      runsOf (process_inline_formatting ('`' :: (code ++ ['`']))) =
        [⟨false, false, false, true, code⟩])
    ∧ ((runsOf (process_inline_formatting (toL "**a `b` c**"))).any
      (fun r => r.code && r.bold && (r.text == toL "b")) = true) := by
  refine ⟨fun code hne h => ?_, by decide⟩
  rw [code_span_restored code hne h]
  exact code_span_run code hne fun x hx => (h x hx).2.1

/-- C2, witness: the amended theorem at the stored content `code_snippet`:
one unstyled code run. -/
theorem code_span_styles_witness :
    runsOf (process_inline_formatting ('`' :: (toL "code_snippet" ++ ['`']))) =
      [⟨false, false, false, true, toL "code_snippet"⟩] :=
  code_span_styles.1 (toL "code_snippet") (by decide) (by decide)
